import Mathlib

/-!
Verification of the appjs widget registry (`src/ui/widget_manager.rs`) and the
JS-side IPC event serialization (`src/js_thread/ipc_ops.rs`).

The registry (`WidgetManager`) is embedded with association lists standing for
Rust `HashMap`s: `mget` is `HashMap::get`, `mset` is `HashMap::insert`
(replace-or-append), `mdel` is `HashMap::remove`, `mupd` applies a function to
the value of a key when present (`get_mut`).  None of the registry operations
iterates over a `HashMap` itself (only over `Vec` values), so hash iteration
order never matters and the association-list embedding is faithful.

`collect_descendants` in the Rust source is unbounded recursion over the
child-list index; the embedding bounds it with explicit fuel.  The fuel chosen
by `remove_widget_subtree` (number of remaining registered widgets plus one)
is proved fuel-independent on every state satisfying the registry invariant
(`descendantsOf_stable`): there the bounded model computes exactly the result
of the source's unbounded recursion.  The invariant holds for all disciplined
call sequences, and the concrete states evaluated below are small enough for
the fuel directly.  On arbitrary states whose child-list chains run through
unregistered keys the bounded model may collect fewer nodes than the source,
so the removal theorems quantify only over invariant states or concrete ones.
-/

/-- `HashMap::get`: first binding of the key in the association list. -/
def mget {α : Type} : List (String × α) → String → Option α
  | [], _ => none
  | p :: rest, x => if p.1 = x then some p.2 else mget rest x

/-- `HashMap::remove` (value-discarding): drop every binding of the key. -/
def mdel {α : Type} : List (String × α) → String → List (String × α)
  | [], _ => []
  | p :: rest, x => if p.1 = x then mdel rest x else p :: mdel rest x

/-- `HashMap::insert`: replace any previous binding of the key. -/
def mset {α : Type} (l : List (String × α)) (k : String) (v : α) : List (String × α) :=
  mdel l k ++ [(k, v)]

/-- `HashMap::get_mut` followed by an in-place update: apply `f` to the value
of key `k` when the key is present, otherwise do nothing. -/
def mupd {α : Type} : List (String × α) → String → (α → α) → List (String × α)
  | [], _, _ => []
  | p :: rest, x, f => (p.1, if p.1 = x then f p.2 else p.2) :: mupd rest x f

/-- `Vec::retain(|c| c != id)`: remove every occurrence of `x`. -/
def ldelAll : List String → String → List String
  | [], _ => []
  | c :: rest, x => if c = x then ldelAll rest x else c :: ldelAll rest x

/-- The closed widget-kind enumeration of `src/ipc` (variants as dispatched in
`src/ui/creation.rs` and parsed in `src/js_thread/ipc_ops.rs`). -/
inductive WidgetKind : Type
  | Label | Button | Svg | Flex | Container | SizedBox | Checkbox
  | TextInput | TextArea | Prose | ProgressBar | Spinner | Slider
  | ZStack | Portal | Grid | Hoverable | Image | Video
  | Custom (name : String)
deriving DecidableEq, Repr

/-- `WidgetInfo` from `src/ui/widget_manager.rs`; the opaque masonry
`WidgetId` is embedded as a natural number. -/
structure WidgetInfo : Type where
  widget_id : Nat
  kind : WidgetKind
  parent_id : Option String
  child_index : Nat
deriving DecidableEq, Repr

/-- The parent key of a record: its `parent_id`, or the root sentinel when
absent (`parent_id.clone().unwrap_or_else(|| "__root__")`). -/
def parentKey (info : WidgetInfo) : String :=
  info.parent_id.getD "__root__"

/-- `WidgetManager` from `src/ui/widget_manager.rs`. -/
structure WidgetManager : Type where
  widgets : List (String × WidgetInfo)
  parent_to_children : List (String × List String)
deriving DecidableEq, Repr

/-- `WidgetManager::new`: empty registry with an empty root child list. -/
def WidgetManager.new : WidgetManager :=
  { widgets := [], parent_to_children := [("__root__", [])] }

/-- The ordered child list of a parent key (empty when the key is absent). -/
def childrenOf (m : WidgetManager) (k : String) : List String :=
  (mget m.parent_to_children k).getD []

/-- `WidgetManager::register_widget`. -/
def register_widget (m : WidgetManager) (id : String) (info : WidgetInfo) : WidgetManager :=
  let parent_key := parentKey info
  let widgets := mset m.widgets id info
  let p1 := mset m.parent_to_children parent_key (childrenOf m parent_key ++ [id])
  let p2 := match mget p1 id with
    | some _ => p1
    | none => mset p1 id []
  { widgets := widgets, parent_to_children := p2 }

/-- `WidgetManager::current_child_count`. -/
def current_child_count (m : WidgetManager) (parent_key : String) : Nat :=
  ((mget m.parent_to_children parent_key).map List.length).getD 0

/-- `WidgetManager::next_child_index`. -/
def next_child_index (m : WidgetManager) (parent_key : String) : Nat :=
  current_child_count m parent_key

/-- `WidgetManager::collect_descendants`, depth-first over the child-list
index.  The Rust recursion is unbounded; `fuel` bounds the recursion depth. -/
def collect_descendants (p2c : List (String × List String)) : Nat → String → List String
  | 0, _ => []
  | fuel + 1, pid =>
    ((mget p2c pid).getD []).flatMap (fun c => c :: collect_descendants p2c fuel c)

/-- One step of `recompute_parent_state`'s loop: set the `child_index` of the
widget `ic.2` (when registered) to the position `ic.1`. -/
def applyChildIndex (w : List (String × WidgetInfo)) (ic : Nat × String) :
    List (String × WidgetInfo) :=
  mupd w ic.2 (fun info => { info with child_index := ic.1 })

/-- `WidgetManager::recompute_parent_state`: rewrite `child_index` of every
registered widget in the parent's child list to its position. -/
def recompute_parent_state (m : WidgetManager) (parent_key : String) : WidgetManager :=
  match mget m.parent_to_children parent_key with
  | none => m
  | some children =>
    { widgets := children.enum.foldl applyChildIndex m.widgets
      parent_to_children := m.parent_to_children }

/-- The descendants collected by `remove_widget_subtree id`: the Rust code
collects them after removing `id`'s record and pruning `id` from its parent's
child list, so collection runs on that intermediate child-list index.  The
fuel (remaining registered widgets plus one) makes the collection independent
of the fuel on every state satisfying the registry invariant
(`descendantsOf_stable` below), where it therefore equals the result of the
source's unbounded recursion. -/
def descendantsOf (m : WidgetManager) (id : String) : List String :=
  match mget m.widgets id with
  | none => []
  | some removed =>
    collect_descendants
      (mupd m.parent_to_children (parentKey removed) (fun cs => ldelAll cs id))
      ((mdel m.widgets id).length + 1) id

/-- `WidgetManager::remove_widget_subtree`. -/
def remove_widget_subtree (m : WidgetManager) (id : String) :
    Option WidgetInfo × WidgetManager :=
  match mget m.widgets id with
  | none => (none, m)
  | some removed =>
    let parent_key := parentKey removed
    let w1 := mdel m.widgets id
    let p1 := mupd m.parent_to_children parent_key (fun cs => ldelAll cs id)
    let descendants := descendantsOf m id
    let w2 := descendants.foldl mdel w1
    let p2 := descendants.foldl mdel p1
    let p3 := mdel p2 id
    let m2 := recompute_parent_state { widgets := w2, parent_to_children := p3 } parent_key
    (some removed, m2)



/-!
Event serialization from `src/js_thread/ipc_ops.rs`.  Rust strings are
embedded as `List Char`.  Numeric payloads (`u32`, `f64`) are embedded by
their decimal rendering (the output of Rust's `Display`, which is how
`format!("{}", v)` splices them into the JSON text), since only the produced
text matters to these claims.
-/

/-- `str::replace(pat, rep)` for a single-character pattern: every occurrence
of `pat` is replaced by `rep`. -/
def replaceChar (pat : Char) (rep : List Char) : List Char → List Char
  | [] => []
  | c :: rest => (if c = pat then rep else [c]) ++ replaceChar pat rep rest

/-- `escape_json_string` from `src/js_thread/ipc_ops.rs`: the five chained
`replace` calls, in source order. -/
def escape_json_string (s : List Char) : List Char :=
  replaceChar '\t' ['\\', 't']
    (replaceChar '\r' ['\\', 'r']
      (replaceChar '\n' ['\\', 'n']
        (replaceChar '"' ['\\', '"']
          (replaceChar '\\' ['\\', '\\'] s))))

/-- Modifier flags carried by key events (fields read by `serialize_event`). -/
structure Modifiers : Type where
  shift : Bool
  ctrl : Bool
  alt : Bool
  meta : Bool
deriving DecidableEq, Repr

/-- `WidgetActionKind` as consumed by `serialize_event`; the `f64` payload of
`ValueChanged` is embedded as its decimal rendering. -/
inductive WidgetActionKind : Type
  | Click
  | DoubleClick
  | TextChanged (t : List Char)
  | ValueChanged (v : List Char)
  | Custom (c : List Char)
deriving DecidableEq, Repr

/-- `UiEvent` as consumed by `serialize_event`; numeric payloads are embedded
as their decimal renderings. -/
inductive UiEvent : Type
  | WindowResized (width height : List Char)
  | MouseClick (x y : List Char)
  | MouseMove (x y : List Char)
  | KeyPress (key : List Char) (modifiers : Modifiers)
  | KeyRelease (key : List Char) (modifiers : Modifiers)
  | TextInput (text : List Char)
  | WidgetAction (widget_id : List Char) (action : WidgetActionKind)
  | WindowFocusChanged (focused : Bool)
  | WindowCloseRequested
  | AppExit
deriving DecidableEq, Repr

/-- Shorthand: the characters of a string literal. -/
def lit (s : String) : List Char := s.toList

/-- Rust `Display` of `bool`. -/
def boolStr (b : Bool) : List Char := if b then lit "true" else lit "false"

/-- `serialize_event` from `src/js_thread/ipc_ops.rs`, arm by arm.  The
`format!` templates are reproduced literally; `\x7b`/`\x7d` denote the brace
characters. -/
def serialize_event : UiEvent → List Char
  | .WindowResized width height =>
    lit "\x7b\"type\":\"windowResized\",\"width\":" ++ width ++
      lit ",\"height\":" ++ height ++ lit "\x7d"
  | .MouseClick x y =>
    lit "\x7b\"type\":\"mouseClick\",\"x\":" ++ x ++ lit ",\"y\":" ++ y ++ lit "\x7d"
  | .MouseMove x y =>
    lit "\x7b\"type\":\"mouseMove\",\"x\":" ++ x ++ lit ",\"y\":" ++ y ++ lit "\x7d"
  | .KeyPress key modifiers =>
    lit "\x7b\"type\":\"keyPress\",\"key\":\"" ++ escape_json_string key ++
      lit "\",\"shift\":" ++ boolStr modifiers.shift ++
      lit ",\"ctrl\":" ++ boolStr modifiers.ctrl ++
      lit ",\"alt\":" ++ boolStr modifiers.alt ++
      lit ",\"meta\":" ++ boolStr modifiers.meta ++ lit "\x7d"
  | .KeyRelease key modifiers =>
    lit "\x7b\"type\":\"keyRelease\",\"key\":\"" ++ escape_json_string key ++
      lit "\",\"shift\":" ++ boolStr modifiers.shift ++
      lit ",\"ctrl\":" ++ boolStr modifiers.ctrl ++
      lit ",\"alt\":" ++ boolStr modifiers.alt ++
      lit ",\"meta\":" ++ boolStr modifiers.meta ++ lit "\x7d"
  | .TextInput text =>
    lit "\x7b\"type\":\"textInput\",\"text\":\"" ++ escape_json_string text ++ lit "\"\x7d"
  | .WidgetAction widget_id action =>
    let action_str : List Char :=
      match action with
      | .Click => lit "click"
      | .DoubleClick => lit "doubleClick"
      | .TextChanged t =>
        lit "textChanged\",\"value\":\"" ++ escape_json_string t ++ lit "\""
      | .ValueChanged v => lit "valueChanged\",\"value\":" ++ v
      | .Custom c => lit "custom\",\"value\":\"" ++ escape_json_string c ++ lit "\""
    lit "\x7b\"type\":\"widgetAction\",\"widgetId\":\"" ++ escape_json_string widget_id ++
      lit "\",\"action\":\"" ++ action_str ++ lit "\"\x7d"
  | .WindowFocusChanged focused =>
    lit "\x7b\"type\":\"windowFocusChanged\",\"focused\":" ++ boolStr focused ++ lit "\x7d"
  | .WindowCloseRequested => lit "\x7b\"type\":\"windowCloseRequested\"\x7d"
  | .AppExit => lit "\x7b\"type\":\"appExit\"\x7d"

/-- `std::sync::mpsc::RecvError`: the receive failure that signals that every
sender was dropped (the only failure `Receiver::recv` can produce). -/
inductive RecvError : Type
  | disconnected
deriving DecidableEq, Repr

/-- The result mapping of `op_wait_for_event` after the blocking receive
completes: a received event is serialized, a disconnection error is mapped to
the successful sentinel string, never to an op error. -/
def op_wait_for_event (recv_result : Except RecvError UiEvent) :
    Except String (List Char) :=
  match recv_result with
  | .ok event => .ok (serialize_event event)
  | .error _ => .ok (lit "\x7b\"type\":\"disconnected\"\x7d")

/-!
JSON validity, modelled from the spec's words: the claims demand that the
wire encoding be a JSON object whose fields decode back, so a recognizer for
RFC 8259 JSON text is needed as the specification side.  It is deliberately
lenient where RFC 8259 is stricter (it accepts leading zeros in numbers), so
rejection by this recognizer certainly means the text is not valid JSON.
-/

/-- JSON insignificant whitespace. -/
def isJsonWs (c : Char) : Bool := c = ' ' || c = '\t' || c = '\n' || c = '\r'

/-- Skip insignificant whitespace. -/
def skipWs (s : List Char) : List Char := s.dropWhile isJsonWs

/-- ASCII digit. -/
def isDigitC (c : Char) : Bool := '0' ≤ c && c ≤ '9'

/-- ASCII hexadecimal digit. -/
def isHexC (c : Char) : Bool :=
  isDigitC c || ('a' ≤ c && c ≤ 'f') || ('A' ≤ c && c ≤ 'F')

/-- Consume one or more digits; `none` when no digit is present. -/
def jDigits1 (s : List Char) : Option (List Char) :=
  if (s.takeWhile isDigitC).isEmpty then none else some (s.dropWhile isDigitC)

/-- Consume a JSON number (sign, integer part, optional fraction and
exponent). -/
def jNum (s : List Char) : Option (List Char) :=
  let s1 := match s with
    | '-' :: r => r
    | _ => s
  match jDigits1 s1 with
  | none => none
  | some s2 =>
    let s3 := match s2 with
      | '.' :: r =>
        match jDigits1 r with
        | some r2 => r2
        | none => '.' :: r
      | _ => s2
    match s3 with
    | 'e' :: r => jExp ('e' :: r)
    | 'E' :: r => jExp ('E' :: r)
    | _ => some s3
where
  /-- Consume an exponent part `e[+-]?digits`; on failure leave it. -/
  jExp : List Char → Option (List Char)
  | e :: '+' :: r =>
    match jDigits1 r with
    | some r2 => some r2
    | none => some (e :: '+' :: r)
  | e :: '-' :: r =>
    match jDigits1 r with
    | some r2 => some r2
    | none => some (e :: '-' :: r)
  | e :: r =>
    match jDigits1 r with
    | some r2 => some r2
    | none => some (e :: r)
  | [] => some []

/-- Parser modes: a value, a string body (after the opening quote), an object
body (after `\x7b`), the rest of an object (after a member), an array body
(after `[`), the rest of an array (after an element). -/
inductive PMode : Type
  | val | strBody | objBody | objRest | arrBody | arrRest

/-- Fueled JSON recognizer: returns the unconsumed remainder on success. -/
def jParse : Nat → PMode → List Char → Option (List Char)
  | 0, _, _ => none
  | fuel + 1, .val, s =>
    match skipWs s with
    | '"' :: r => jParse fuel .strBody r
    | '\x7b' :: r => jParse fuel .objBody r
    | '[' :: r => jParse fuel .arrBody r
    | 't' :: 'r' :: 'u' :: 'e' :: r => some r
    | 'f' :: 'a' :: 'l' :: 's' :: 'e' :: r => some r
    | 'n' :: 'u' :: 'l' :: 'l' :: r => some r
    | s' => jNum s'
  | fuel + 1, .strBody, s =>
    match s with
    | [] => none
    | '"' :: r => some r
    | '\\' :: e :: r =>
      if e = 'u' then
        match r with
        | a :: b :: c :: d :: r2 =>
          if isHexC a && isHexC b && isHexC c && isHexC d then jParse fuel .strBody r2
          else none
        | _ => none
      else if e = '"' || e = '\\' || e = '/' || e = 'b' || e = 'f' ||
          e = 'n' || e = 'r' || e = 't' then jParse fuel .strBody r
      else none
    | c :: r => if c.toNat < 32 then none else jParse fuel .strBody r
  | fuel + 1, .objBody, s =>
    match skipWs s with
    | '\x7d' :: r => some r
    | '"' :: r =>
      match jParse fuel .strBody r with
      | none => none
      | some r2 =>
        match skipWs r2 with
        | ':' :: r3 =>
          match jParse fuel .val r3 with
          | none => none
          | some r4 => jParse fuel .objRest r4
        | _ => none
    | _ => none
  | fuel + 1, .objRest, s =>
    match skipWs s with
    | '\x7d' :: r => some r
    | ',' :: r =>
      match skipWs r with
      | '"' :: r2 =>
        match jParse fuel .strBody r2 with
        | none => none
        | some r3 =>
          match skipWs r3 with
          | ':' :: r4 =>
            match jParse fuel .val r4 with
            | none => none
            | some r5 => jParse fuel .objRest r5
          | _ => none
      | _ => none
    | _ => none
  | fuel + 1, .arrBody, s =>
    match skipWs s with
    | ']' :: r => some r
    | s' =>
      match jParse fuel .val s' with
      | none => none
      | some r2 => jParse fuel .arrRest r2
  | fuel + 1, .arrRest, s =>
    match skipWs s with
    | ']' :: r => some r
    | ',' :: r =>
      match jParse fuel .val r with
      | none => none
      | some r2 => jParse fuel .arrRest r2
    | _ => none

/-- A character list is a valid JSON text: one value, then only whitespace. -/
def jsonValid (s : List Char) : Bool :=
  match jParse (2 * s.length + 8) .val s with
  | some r => (skipWs r).isEmpty
  | none => false




/-!
Call sequences against the registry, and the structural predicates the
claims quantify over.
-/

/-- One mutating registry call. -/
inductive Op : Type
  | register (id : String) (info : WidgetInfo)
  | remove (id : String)
deriving DecidableEq, Repr

/-- Apply one call. -/
def applyOp (m : WidgetManager) : Op → WidgetManager
  | .register id info => register_widget m id info
  | .remove id => (remove_widget_subtree m id).2

/-- The state after a sequence of calls starting from `WidgetManager.new`. -/
def applyOps (ops : List Op) : WidgetManager :=
  ops.foldl applyOp WidgetManager.new

/-- The call discipline the dispatcher obeys (spec 4.1/4.2): a `register`
uses an id that is not currently registered and is not the root sentinel, and
a parent that is absent or currently registered; a `remove` is unrestricted
(removal is idempotent). -/
def disciplinedStep (m : WidgetManager) : Op → Bool
  | .register id info =>
    (mget m.widgets id).isNone && !(decide (id = "__root__")) &&
      (match info.parent_id with
       | none => true
       | some p => (mget m.widgets p).isSome)
  | .remove _ => true

/-- A whole call sequence is disciplined from a starting state. -/
def disciplinedFrom (m : WidgetManager) : List Op → Bool
  | [] => true
  | op :: rest => disciplinedStep m op && disciplinedFrom (applyOp m op) rest

/-- Does the parent chain from `w` reach the root sentinel within `fuel`
steps?  A chain that leaves the registry or cycles never returns `true`. -/
def chainToRoot (m : WidgetManager) : Nat → String → Bool
  | 0, _ => false
  | fuel + 1, w =>
    match mget m.widgets w with
    | none => false
    | some info =>
      match info.parent_id with
      | none => true
      | some p => if p = "__root__" then true else chainToRoot m fuel p

/-- Every registered id's parent chain terminates at the root sentinel (and
hence has no cycle: a cycle never reaches the root in any number of steps). -/
def chainOk (m : WidgetManager) : Prop :=
  ∀ w, (mget m.widgets w).isSome → ∃ fuel, chainToRoot m fuel w = true

/-- A rank function certifying the parent graph is acyclic: every registered
widget's parent is the root sentinel or a registered widget of smaller rank. -/
def rankOk (r : String → Nat) (m : WidgetManager) : Prop :=
  ∀ w info, mget m.widgets w = some info →
    parentKey info = "__root__" ∨
      (∃ pinfo, mget m.widgets (parentKey info) = some pinfo ∧
        r (parentKey info) < r w)

/-- An id sits in at most one child list. -/
def occOnce (m : WidgetManager) : Prop :=
  ∀ c k1 k2, c ∈ childrenOf m k1 → c ∈ childrenOf m k2 → k1 = k2

/-- No child list repeats an id. -/
def eachNodup (m : WidgetManager) : Prop :=
  ∀ k, (childrenOf m k).Nodup

/-- Every member of a child list is registered, with that list's key as its
parent key (the spec's "no dangling children"). -/
def listReg (m : WidgetManager) : Prop :=
  ∀ k c, c ∈ childrenOf m k →
    ∃ ci, mget m.widgets c = some ci ∧ parentKey ci = k

/-- Every registered widget appears in its parent's child list. -/
def childMem (m : WidgetManager) : Prop :=
  ∀ w info, mget m.widgets w = some info → w ∈ childrenOf m (parentKey info)

/-- The inductive invariant of the registry. -/
structure RegInv (m : WidgetManager) : Prop where
  rootAbsent : mget m.widgets "__root__" = none
  hasRank : ∃ r, rankOk r m
  child_mem : childMem m
  list_reg : listReg m
  occ_once : occOnce m
  each_nodup : eachNodup m

/-- A path in the child-list index: each step descends into a child list. -/
def isPath (p2c : List (String × List String)) : String → List String → Prop
  | _, [] => True
  | a, c :: rest => c ∈ (mget p2c a).getD [] ∧ isPath p2c c rest

/-- A sequence of widget creations under one parent, as `create_and_add_widget`
performs them (`src/ui/creation.rs`): each creation reads `next_child_index`
of the parent key and registers with that index; the assigned indices are
returned alongside the final state. -/
def createSeq (m : WidgetManager) (p : Option String) : List String → WidgetManager × List Nat
  | [] => (m, [])
  | id :: rest =>
    let i := next_child_index m (p.getD "__root__")
    let m1 := register_widget m id ⟨0, .Button, p, i⟩
    let (mf, idxs) := createSeq m1 p rest
    (mf, i :: idxs)

/-- Per-character view of `escape_json_string`. -/
def esc1 (c : Char) : List Char :=
  if c = '\\' then ['\\', '\\']
  else if c = '"' then ['\\', '"']
  else if c = '\n' then ['\\', 'n']
  else if c = '\r' then ['\\', 'r']
  else if c = '\t' then ['\\', 't']
  else [c]

/-- The claim's property of an escaped string: no unescaped control
character (code point below 32), quote, or backslash remains; a backslash
always introduces a two-character escape. -/
def claimEscaped : List Char → Bool
  | [] => true
  | c :: rest =>
    if c = '\\' then
      match rest with
      | [] => false
      | _ :: rest2 => claimEscaped rest2
    else
      32 ≤ c.toNat && !(decide (c = '"')) && claimEscaped rest

/-- The property `escape_json_string` actually guarantees: no unescaped
quote or backslash, and none of newline, carriage return, or tab remains
unescaped; every backslash introduces one of the five produced escapes. -/
def wellEscaped : List Char → Bool
  | [] => true
  | c :: rest =>
    if c = '\\' then
      match rest with
      | [] => false
      | e :: rest2 =>
        (e = '\\' || e = '"' || e = 'n' || e = 'r' || e = 't') && wellEscaped rest2
    else
      !(decide (c = '"')) && !(decide (c = '\n')) && !(decide (c = '\r')) &&
        !(decide (c = '\t')) && wellEscaped rest

/-- Per-character expansion of `escape_json_string`. -/
def escFlat : List Char → List Char
  | [] => []
  | c :: s => esc1 c ++ escFlat s

/-!
Association-map lemmas.
-/

theorem mget_mdel_self {α : Type} (l : List (String × α)) (k : String) :
    mget (mdel l k) k = none := by
  induction l with
  | nil => rfl
  | cons p rest ih =>
    by_cases h : p.1 = k
    · simpa [mdel, h] using ih
    · simp [mdel, mget, h, ih]

theorem mget_mdel_ne {α : Type} {x k : String} (h : x ≠ k) (l : List (String × α)) :
    mget (mdel l k) x = mget l x := by
  induction l with
  | nil => rfl
  | cons p rest ih =>
    by_cases hp : p.1 = k
    · have hpx : p.1 ≠ x := by rw [hp]; exact fun e => h e.symm
      simp only [mdel, if_pos hp, ih, mget, if_neg hpx]
    · simp only [mdel, if_neg hp, mget]
      by_cases hx : p.1 = x
      · simp only [if_pos hx]
      · simp only [if_neg hx, ih]

theorem mget_append {α : Type} (l1 l2 : List (String × α)) (x : String) :
    mget (l1 ++ l2) x =
      match mget l1 x with
      | some v => some v
      | none => mget l2 x := by
  induction l1 with
  | nil => rfl
  | cons p rest ih =>
    by_cases hp : p.1 = x
    · simp [mget, hp]
    · simp [mget, hp, ih]

theorem mget_mset_self {α : Type} (l : List (String × α)) (k : String) (v : α) :
    mget (mset l k v) k = some v := by
  rw [mset, mget_append, mget_mdel_self]
  simp [mget]

theorem mget_mset_ne {α : Type} {x k : String} (h : x ≠ k) (l : List (String × α))
    (v : α) : mget (mset l k v) x = mget l x := by
  rw [mset, mget_append, mget_mdel_ne h]
  cases hx : mget l x with
  | none => simp [mget, Ne.symm h]
  | some w => rfl

theorem mget_mupd {α : Type} (l : List (String × α)) (k : String) (f : α → α)
    (x : String) :
    mget (mupd l k f) x = if x = k then (mget l x).map f else mget l x := by
  induction l with
  | nil => simp [mupd, mget]
  | cons p rest ih =>
    by_cases hk : x = k
    · subst hk
      by_cases hp : p.1 = x
      · simp [mupd, mget, hp]
      · simp [mupd, mget, hp, ih]
    · by_cases hp : p.1 = x
      · have hpk : p.1 ≠ k := by rw [hp]; exact hk
        simp [mupd, mget, hp, hpk, hk]
      · simp [mupd, mget, hp, hk, ih]

theorem mget_foldl_mdel_notMem {α : Type} (ds : List String) {x : String} :
    ∀ l : List (String × α), x ∉ ds → mget (ds.foldl mdel l) x = mget l x := by
  induction ds with
  | nil => intro l _; rfl
  | cons d rest ih =>
    intro l h
    have hne : x ≠ d := fun e => h (e ▸ List.mem_cons_self d rest)
    rw [List.foldl_cons, ih (mdel l d) (fun hm => h (List.mem_cons_of_mem d hm)),
      mget_mdel_ne hne]

theorem mget_foldl_mdel_mem {α : Type} (ds : List String) {x : String} :
    ∀ l : List (String × α), x ∈ ds → mget (ds.foldl mdel l) x = none := by
  induction ds with
  | nil => intro l h; cases h
  | cons d rest ih =>
    intro l h
    rw [List.foldl_cons]
    by_cases hr : x ∈ rest
    · exact ih (mdel l d) hr
    · have hx : x = d := by
        rcases List.mem_cons.mp h with h1 | h1
        · exact h1
        · exact absurd h1 hr
      rw [mget_foldl_mdel_notMem rest (mdel l d) hr, hx, mget_mdel_self]

theorem mem_ldelAll {x c : String} (l : List String) :
    c ∈ ldelAll l x ↔ c ∈ l ∧ c ≠ x := by
  induction l with
  | nil => simp [ldelAll]
  | cons e rest ih =>
    by_cases he : e = x
    · simp only [ldelAll, if_pos he, ih]
      constructor
      · exact fun ⟨h1, h2⟩ => ⟨List.mem_cons_of_mem e h1, h2⟩
      · rintro ⟨h1, h2⟩
        rcases List.mem_cons.mp h1 with h3 | h3
        · exact absurd (h3.trans he) h2
        · exact ⟨h3, h2⟩
    · simp only [ldelAll, if_neg he]
      constructor
      · intro hm
        rcases List.mem_cons.mp hm with h3 | h3
        · exact ⟨List.mem_cons.mpr (Or.inl h3), fun hcx => he ((h3.symm.trans hcx))⟩
        · rcases (ih.mp h3) with ⟨h4, h5⟩
          exact ⟨List.mem_cons_of_mem e h4, h5⟩
      · rintro ⟨h1, h2⟩
        rcases List.mem_cons.mp h1 with h3 | h3
        · exact List.mem_cons.mpr (Or.inl h3)
        · exact List.mem_cons_of_mem e (ih.mpr ⟨h3, h2⟩)

theorem ldelAll_sublist (l : List String) (x : String) :
    List.Sublist (ldelAll l x) l := by
  induction l with
  | nil => exact List.Sublist.slnil
  | cons e rest ih =>
    by_cases he : e = x
    · simp only [ldelAll, if_pos he]
      exact ih.cons e
    · simp only [ldelAll, if_neg he]
      exact ih.cons₂ e

theorem mem_keys_of_mget {α : Type} {x : String} {v : α} (l : List (String × α))
    (h : mget l x = some v) : x ∈ l.map Prod.fst := by
  induction l with
  | nil => simp [mget] at h
  | cons p rest ih =>
    by_cases hp : p.1 = x
    · simp only [List.map_cons]
      exact List.mem_cons.mpr (Or.inl hp.symm)
    · simp only [mget, if_neg hp] at h
      simp only [List.map_cons]
      exact List.mem_cons_of_mem p.1 (ih h)

/-!
Escape-function lemmas.
-/

theorem replaceChar_append (pat : Char) (rep : List Char) (l1 l2 : List Char) :
    replaceChar pat rep (l1 ++ l2) = replaceChar pat rep l1 ++ replaceChar pat rep l2 := by
  induction l1 with
  | nil => rfl
  | cons c rest ih => simp [replaceChar, ih, List.append_assoc]

theorem escape_append (l1 l2 : List Char) :
    escape_json_string (l1 ++ l2) = escape_json_string l1 ++ escape_json_string l2 := by
  simp [escape_json_string, replaceChar_append]

theorem escape_single (c : Char) : escape_json_string [c] = esc1 c := by
  by_cases h1 : c = '\\'
  · subst h1; rfl
  · by_cases h2 : c = '"'
    · subst h2; rfl
    · by_cases h3 : c = '\n'
      · subst h3; rfl
      · by_cases h4 : c = '\r'
        · subst h4; rfl
        · by_cases h5 : c = '\t'
          · subst h5; rfl
          · simp [escape_json_string, replaceChar, esc1, h1, h2, h3, h4, h5]

theorem escape_eq_escFlat (s : List Char) : escape_json_string s = escFlat s := by
  induction s with
  | nil => rfl
  | cons c rest ih =>
    have hsplit : c :: rest = [c] ++ rest := rfl
    rw [hsplit, escape_append, escape_single, ih]
    simp [escFlat]

theorem wellEscaped_esc1 (c : Char) (l : List Char) :
    wellEscaped (esc1 c ++ l) = wellEscaped l := by
  by_cases h1 : c = '\\'
  · subst h1; simp [esc1, wellEscaped]
  · by_cases h2 : c = '"'
    · subst h2; simp [esc1, wellEscaped]
    · by_cases h3 : c = '\n'
      · subst h3; simp [esc1, wellEscaped]
      · by_cases h4 : c = '\r'
        · subst h4; simp [esc1, wellEscaped]
        · by_cases h5 : c = '\t'
          · subst h5; simp [esc1, wellEscaped]
          · have hesc : esc1 c = [c] := by simp [esc1, h1, h2, h3, h4, h5]
            rw [hesc, List.singleton_append, wellEscaped.eq_def]
            simp [h1, h2, h3, h4, h5]

/-!
Claim theorems: serialization and error handling.
-/

/-- C1: the claim says every `UiEvent` serializes to valid JSON whose `type`
discriminator and fields decode back to the original values, and that a
`WidgetAction` with `ValueChanged(0.5)` encodes
`"action":"valueChanged","value":0.5` inside valid JSON.  The code disagrees:
the `WidgetAction` format string closes the `action` value with an extra
quote, so the `ValueChanged` arm emits `...,"value":0.5"\x7d`, which is not
valid JSON (while the `Click` arm is well formed).  This theorem evaluates
`serialize_event` at the claim's own example and checks the output against
the JSON grammar. -/
theorem C1_theorem :
    serialize_event (.WidgetAction (lit "w") (.ValueChanged (lit "0.5"))) =
      lit "\x7b\"type\":\"widgetAction\",\"widgetId\":\"w\",\"action\":\"valueChanged\",\"value\":0.5\"\x7d" ∧
    jsonValid (serialize_event (.WidgetAction (lit "w") (.ValueChanged (lit "0.5")))) = false ∧
    jsonValid (serialize_event (.WidgetAction (lit "w") .Click)) = true :=
  ⟨by decide, by decide, by decide⟩

/-- C3: after registering `A` under the root, `B` under `A`, and `C` under
`B`, `remove_widget_subtree "A"` leaves no record and no child-list entry for
`A`, `B`, or `C`, and the root's child list no longer contains `A`. -/
theorem C3_theorem :
    (let m := applyOps [.register "A" ⟨0, .Flex, none, 0⟩,
                        .register "B" ⟨1, .Flex, some "A", 0⟩,
                        .register "C" ⟨2, .Label, some "B", 0⟩]
     let m' := (remove_widget_subtree m "A").2
     mget m'.widgets "A" = none ∧ mget m'.widgets "B" = none ∧
     mget m'.widgets "C" = none ∧
     mget m'.parent_to_children "A" = none ∧
     mget m'.parent_to_children "B" = none ∧
     mget m'.parent_to_children "C" = none ∧
     "A" ∉ childrenOf m' "__root__") := by
  decide

/-- C4: after creating `A`, `B`, `C` under the root (each taking its index
from `next_child_index`) and removing `B`, the survivors are reindexed
densely: `A.child_index = 0` and `C.child_index = 1`. -/
theorem C4_theorem :
    (let m := (createSeq WidgetManager.new none ["A", "B", "C"]).1
     let m' := (remove_widget_subtree m "B").2
     (mget m'.widgets "A").map WidgetInfo.child_index = some 0 ∧
     (mget m'.widgets "C").map WidgetInfo.child_index = some 1) := by
  decide

/-- C5: removing an id that is not registered returns the not-found result
and leaves the registry (both maps) exactly unchanged, for every state. -/
theorem C5_theorem (m : WidgetManager) (id : String)
    (h : mget m.widgets id = none) :
    remove_widget_subtree m id = (none, m) := by
  unfold remove_widget_subtree
  rw [h]

/-- C5 witness: removing the never-created id "ghost" from the fresh registry
is a no-op. -/
theorem C5_witness :
    mget WidgetManager.new.widgets "ghost" = none ∧
      remove_widget_subtree WidgetManager.new "ghost" = (none, WidgetManager.new) :=
  ⟨by decide, C5_theorem WidgetManager.new "ghost" (by decide)⟩

/-- C8: when the blocking receive inside `op_wait_for_event` reports
disconnection, the op returns a successful result carrying exactly the
sentinel text `\x7b"type":"disconnected"\x7d`, never an error. -/
theorem C8_theorem (e : RecvError) :
    op_wait_for_event (.error e) = .ok (lit "\x7b\"type\":\"disconnected\"\x7d") := rfl

/-- C8 witness: the disconnection case evaluated at the concrete error. -/
theorem C8_witness :
    op_wait_for_event (.error .disconnected) =
      .ok (lit "\x7b\"type\":\"disconnected\"\x7d") :=
  C8_theorem .disconnected

/-- C9 counterexample: the claim says `escape_json_string` escapes every
control character; the control character U+0001 passes through unescaped, so
the claimed property evaluates to false on the one-character input U+0001. -/
theorem C9_cex :
    claimEscaped (escape_json_string [Char.ofNat 1]) = false := by
  decide

/-- C9 (amended): `escape_json_string` escapes every double quote and
backslash and the control characters newline, carriage return, and tab; the
output contains no unescaped occurrence of these (other control characters
pass through unchanged). -/
theorem C9_theorem (s : List Char) : wellEscaped (escape_json_string s) = true := by
  rw [escape_eq_escFlat]
  induction s with
  | nil => rfl
  | cons c rest ih =>
    simp only [escFlat]
    rw [wellEscaped_esc1]
    exact ih

/-- C9 witness: the amended guarantee evaluated on a concrete string with a
quote, a backslash, and a newline. -/
theorem C9_witness :
    wellEscaped (escape_json_string (lit "a\"b\\c\nd")) = true :=
  C9_theorem (lit "a\"b\\c\nd")

/-!
Append-only indexing (C6).
-/

theorem current_child_count_eq (m : WidgetManager) (k : String) :
    current_child_count m k = (childrenOf m k).length := by
  unfold current_child_count childrenOf
  cases mget m.parent_to_children k <;> rfl

theorem childrenOf_register_parent (m : WidgetManager) (id : String) (info : WidgetInfo) :
    childrenOf (register_widget m id info) (parentKey info) =
      childrenOf m (parentKey info) ++ [id] := by
  unfold register_widget childrenOf
  dsimp only
  split
  · rw [mget_mset_self]
    rfl
  · rename_i heq
    by_cases hpk : parentKey info = id
    · rw [← hpk, mget_mset_self] at heq
      cases heq
    · rw [mget_mset_ne hpk, mget_mset_self]
      rfl

theorem current_child_count_register (m : WidgetManager) (id : String)
    (info : WidgetInfo) :
    current_child_count (register_widget m id info) (parentKey info) =
      current_child_count m (parentKey info) + 1 := by
  rw [current_child_count_eq, current_child_count_eq, childrenOf_register_parent]
  simp

theorem createSeq_indices (p : Option String) :
    ∀ (ids : List String) (m : WidgetManager),
      (createSeq m p ids).2 =
        List.range' (current_child_count m (p.getD "__root__")) ids.length := by
  intro ids
  induction ids with
  | nil => intro m; rfl
  | cons id rest ih =>
    intro m
    show (let i := next_child_index m (p.getD "__root__")
          let m1 := register_widget m id ⟨0, .Button, p, i⟩
          let r := createSeq m1 p rest
          (r.1, i :: r.2)).2 = _
    dsimp only
    rw [ih]
    have hpk : parentKey ⟨0, WidgetKind.Button, p, next_child_index m (p.getD "__root__")⟩ =
        p.getD "__root__" := rfl
    have hb := current_child_count_register m id
      ⟨0, WidgetKind.Button, p, next_child_index m (p.getD "__root__")⟩
    rw [hpk] at hb
    rw [hb]
    simp only [List.length_cons, List.range'_succ]
    rfl

/-- C6: `next_child_index` returns the current length of the parent's child
list, and a sequence of `N` creations under one parent (each taking its
`child_index` from `next_child_index` before registering, as
`create_and_add_widget` does) assigns exactly the indices `0..N-1` in call
order, starting from a parent with no children. -/
theorem C6_theorem :
    (∀ (m : WidgetManager) (pk : String) (cs : List String),
        mget m.parent_to_children pk = some cs → next_child_index m pk = cs.length) ∧
    (∀ (m0 : WidgetManager) (p : Option String) (ids : List String),
        current_child_count m0 (p.getD "__root__") = 0 →
        (createSeq m0 p ids).2 = List.range ids.length) := by
  constructor
  · intro m pk cs h
    unfold next_child_index current_child_count
    rw [h]
    rfl
  · intro m0 p ids h
    rw [createSeq_indices p ids m0, h, List.range_eq_range']

/-- C6 witness: three creations under the fresh root get indices 0, 1, 2. -/
theorem C6_witness :
    current_child_count WidgetManager.new ((none : Option String).getD "__root__") = 0 ∧
      (createSeq WidgetManager.new none ["a", "b", "c"]).2 = List.range 3 :=
  ⟨by decide, C6_theorem.2 WidgetManager.new none ["a", "b", "c"] (by decide)⟩

/-!
Frame effect of removal (C10).
-/

theorem mget_foldl_applyChildIndex_notMem (ps : List (Nat × String)) :
    ∀ (w : List (String × WidgetInfo)) {x : String}, x ∉ ps.map Prod.snd →
      mget (ps.foldl applyChildIndex w) x = mget w x := by
  induction ps with
  | nil => intro w x _; rfl
  | cons q rest ih =>
    intro w x h
    have hx : x ≠ q.2 := fun e => h (List.mem_cons.mpr (Or.inl e))
    rw [List.foldl_cons, ih (applyChildIndex w q)
      (fun hm => h (List.mem_cons.mpr (Or.inr hm)))]
    unfold applyChildIndex
    rw [mget_mupd, if_neg hx]

theorem mget_foldl_applyChildIndex_shape (ps : List (Nat × String)) :
    ∀ (w : List (String × WidgetInfo)) (x : String),
      (mget (ps.foldl applyChildIndex w) x = none ∧ mget w x = none) ∨
      (∃ i' i, mget (ps.foldl applyChildIndex w) x = some i' ∧ mget w x = some i ∧
        i'.widget_id = i.widget_id ∧ i'.kind = i.kind ∧ i'.parent_id = i.parent_id) := by
  induction ps with
  | nil =>
    intro w x
    cases h : mget w x with
    | none => exact Or.inl ⟨h, rfl⟩
    | some i => exact Or.inr ⟨i, i, h, rfl, rfl, rfl, rfl⟩
  | cons q rest ih =>
    intro w x
    rw [List.foldl_cons]
    rcases ih (applyChildIndex w q) x with ⟨h1, h2⟩ | ⟨i', i, h1, h2, ha, hb, hc⟩ <;>
      unfold applyChildIndex at h2 <;> rw [mget_mupd] at h2
    · left
      refine ⟨h1, ?_⟩
      by_cases hx : x = q.2
      · rw [if_pos hx] at h2
        cases hw : mget w x with
        | none => rfl
        | some j => rw [hw] at h2; cases h2
      · rwa [if_neg hx] at h2
    · right
      by_cases hx : x = q.2
      · rw [if_pos hx] at h2
        cases hw : mget w x with
        | none => rw [hw] at h2; cases h2
        | some j =>
          rw [hw] at h2
          have hij : i = { j with child_index := q.1 } := by
            injection h2 with h2
            exact h2.symm
          refine ⟨i', j, h1, rfl, ?_, ?_, ?_⟩
          · rw [ha, hij]
          · rw [hb, hij]
          · rw [hc, hij]
      · rw [if_neg hx] at h2
        exact ⟨i', i, h1, h2, ha, hb, hc⟩

theorem mget_recompute (mm : WidgetManager) (pk x : String) :
    mget (recompute_parent_state mm pk).widgets x =
      match mget mm.parent_to_children pk with
      | none => mget mm.widgets x
      | some children => mget (children.enum.foldl applyChildIndex mm.widgets) x := by
  unfold recompute_parent_state
  cases mget mm.parent_to_children pk <;> rfl

theorem mget_recompute_notMem (mm : WidgetManager) (pk x : String)
    (h : ∀ children, mget mm.parent_to_children pk = some children → x ∉ children) :
    mget (recompute_parent_state mm pk).widgets x = mget mm.widgets x := by
  rw [mget_recompute]
  cases hc : mget mm.parent_to_children pk with
  | none => rfl
  | some children =>
    have hmem : x ∉ children.enum.map Prod.snd := by
      rw [List.enum_map_snd]
      exact h children hc
    exact mget_foldl_applyChildIndex_notMem children.enum mm.widgets hmem

theorem mget_recompute_shape (mm : WidgetManager) (pk x : String) :
    (mget (recompute_parent_state mm pk).widgets x = none ∧ mget mm.widgets x = none) ∨
      (∃ i' i, mget (recompute_parent_state mm pk).widgets x = some i' ∧
        mget mm.widgets x = some i ∧
        i'.widget_id = i.widget_id ∧ i'.kind = i.kind ∧ i'.parent_id = i.parent_id) := by
  rw [mget_recompute]
  cases hc : mget mm.parent_to_children pk with
  | none =>
    cases h : mget mm.widgets x with
    | none => exact Or.inl ⟨rfl, rfl⟩
    | some i => exact Or.inr ⟨i, i, rfl, rfl, rfl, rfl, rfl⟩
  | some children => exact mget_foldl_applyChildIndex_shape children.enum mm.widgets x

/-- C10 counterexample: the claim quantifies over every registry state, but a
reachable state (register "w" under the root, re-register "w" under "q",
register "x" under the root) leaves "w" in the root's child list while its
record names parent "q".  Removing "x" then rewrites `w.child_index` from 5
to 0 although "w" is neither "x" nor a descendant of "x" and its parent key
"q" differs from the removed widget's parent key "__root__". -/
theorem C10_cex :
    (let m := applyOps [.register "w" ⟨0, .Button, none, 0⟩,
                        .register "w" ⟨0, .Button, some "q", 5⟩,
                        .register "x" ⟨1, .Button, none, 1⟩]
     let m' := (remove_widget_subtree m "x").2
     (mget m.widgets "x").isSome ∧ "w" ≠ "x" ∧ "w" ∉ descendantsOf m "x" ∧
     (mget m.widgets "w").map parentKey = some "q" ∧
     (mget m.widgets "x").map parentKey = some "__root__" ∧
     (mget m.widgets "w").map WidgetInfo.child_index = some 5 ∧
     (mget m'.widgets "w").map WidgetInfo.child_index = some 0) := by
  decide

/-- Frame lemma for removal over an arbitrary state: after
`remove_widget_subtree id`, every widget that is neither `id` nor one of the
collected descendants keeps a record with `widget_id`, `kind`, and
`parent_id` unchanged; and provided every registered widget listed in the
removed widget's parent's child list has that parent as its parent key, a
surviving widget whose parent key differs from the removed widget's parent
key also keeps its `child_index` (its record is unchanged). -/
theorem remove_frame (m : WidgetManager) (id w : String) (rinfo winfo : WidgetInfo)
    (hid : mget m.widgets id = some rinfo)
    (hw : mget m.widgets w = some winfo)
    (hne : w ≠ id)
    (hnd : w ∉ descendantsOf m id) :
    ∃ winfo',
      mget (remove_widget_subtree m id).2.widgets w = some winfo' ∧
      winfo'.widget_id = winfo.widget_id ∧ winfo'.kind = winfo.kind ∧
      winfo'.parent_id = winfo.parent_id ∧
      ((∀ c ci, c ∈ childrenOf m (parentKey rinfo) → mget m.widgets c = some ci →
          parentKey ci = parentKey rinfo) →
        parentKey winfo ≠ parentKey rinfo → winfo' = winfo) := by
  have hrem : (remove_widget_subtree m id).2 =
      recompute_parent_state
        { widgets := (descendantsOf m id).foldl mdel (mdel m.widgets id)
          parent_to_children :=
            mdel ((descendantsOf m id).foldl mdel
              (mupd m.parent_to_children (parentKey rinfo) (fun cs => ldelAll cs id))) id }
        (parentKey rinfo) := by
    unfold remove_widget_subtree
    rw [hid]
  rw [hrem]
  have hw2 : mget ((descendantsOf m id).foldl mdel (mdel m.widgets id)) w = some winfo := by
    rw [mget_foldl_mdel_notMem _ _ hnd, mget_mdel_ne hne]
    exact hw
  rcases mget_recompute_shape
      { widgets := (descendantsOf m id).foldl mdel (mdel m.widgets id)
        parent_to_children :=
          mdel ((descendantsOf m id).foldl mdel
            (mupd m.parent_to_children (parentKey rinfo) (fun cs => ldelAll cs id))) id }
      (parentKey rinfo) w with
    ⟨h1, h2⟩ | ⟨i', i, h1, h2, ha, hb, hc⟩
  · rw [hw2] at h2
    exact Option.noConfusion h2
  · rw [hw2] at h2
    injection h2 with h2
    subst h2
    refine ⟨i', h1, ha, hb, hc, ?_⟩
    intro hcoh hpar
    have huntouched :
        mget (recompute_parent_state
          { widgets := (descendantsOf m id).foldl mdel (mdel m.widgets id)
            parent_to_children :=
              mdel ((descendantsOf m id).foldl mdel
                (mupd m.parent_to_children (parentKey rinfo) (fun cs => ldelAll cs id))) id }
          (parentKey rinfo)).widgets w =
        mget ((descendantsOf m id).foldl mdel (mdel m.widgets id)) w := by
      apply mget_recompute_notMem
      intro children hch
      intro hwch
      by_cases hpkid : parentKey rinfo = id
      · rw [hpkid, mget_mdel_self] at hch
        exact Option.noConfusion hch
      · rw [mget_mdel_ne hpkid] at hch
        by_cases hpkD : parentKey rinfo ∈ descendantsOf m id
        · rw [mget_foldl_mdel_mem _ _ hpkD] at hch
          exact Option.noConfusion hch
        · rw [mget_foldl_mdel_notMem _ _ hpkD, mget_mupd, if_pos rfl] at hch
          cases hcs : mget m.parent_to_children (parentKey rinfo) with
          | none =>
            rw [hcs] at hch
            exact Option.noConfusion hch
          | some cs =>
            rw [hcs] at hch
            have hchl : ldelAll cs id = children := by
              injection hch
            rcases (mem_ldelAll cs).mp (hchl ▸ hwch) with ⟨hwcs, _⟩
            have hpw : parentKey winfo = parentKey rinfo :=
              hcoh w winfo (by unfold childrenOf; rw [hcs]; exact hwcs) hw
            exact hpar hpw
    have hival : mget ((descendantsOf m id).foldl mdel (mdel m.widgets id)) w = some i' :=
      huntouched.symm.trans h1
    rw [hw2] at hival
    injection hival with hival
    exact hival.symm

/-!
Paths through the child-list index, and what `collect_descendants` gathers.
-/

theorem mem_collect_intro (p2c : List (String × List String)) :
    ∀ (l : List String) (fuel : Nat) (a x : String),
      isPath p2c a (l ++ [x]) → l.length + 1 ≤ fuel →
      x ∈ collect_descendants p2c fuel a := by
  intro l
  induction l with
  | nil =>
    intro fuel a x hpath hlen
    cases fuel with
    | zero => omega
    | succ f =>
      rcases hpath with ⟨hx, -⟩
      unfold collect_descendants
      exact List.mem_flatMap.mpr ⟨x, hx, List.mem_cons_self x _⟩
  | cons c l' ih =>
    intro fuel a x hpath hlen
    cases fuel with
    | zero => omega
    | succ f =>
      rcases hpath with ⟨hc, hrest⟩
      unfold collect_descendants
      refine List.mem_flatMap.mpr ⟨c, hc, ?_⟩
      exact List.mem_cons_of_mem c (ih f c x hrest (by simpa using Nat.lt_succ_iff.mp (by simpa [Nat.succ_le_iff] using hlen)))

theorem collect_elim_edge (p2c : List (String × List String)) :
    ∀ (fuel : Nat) (a x : String), x ∈ collect_descendants p2c fuel a →
      ∃ e, (e = a ∨ e ∈ collect_descendants p2c fuel a) ∧
        x ∈ (mget p2c e).getD [] := by
  intro fuel
  induction fuel with
  | zero => intro a x hx; cases hx
  | succ f ih =>
    intro a x hx
    unfold collect_descendants at hx
    rcases List.mem_flatMap.mp hx with ⟨c, hc, hxc⟩
    rcases List.mem_cons.mp hxc with hxc | hxc
    · exact ⟨a, Or.inl rfl, hxc ▸ hc⟩
    · rcases ih c x hxc with ⟨e, he, hxe⟩
      refine ⟨e, Or.inr ?_, hxe⟩
      unfold collect_descendants
      rcases he with he | he
      · exact List.mem_flatMap.mpr ⟨c, hc, he ▸ List.mem_cons_self c _⟩
      · exact List.mem_flatMap.mpr ⟨c, hc, List.mem_cons_of_mem c he⟩

theorem collect_elim_path (p2c : List (String × List String)) :
    ∀ (fuel : Nat) (a x : String), x ∈ collect_descendants p2c fuel a →
      ∃ l, isPath p2c a (l ++ [x]) := by
  intro fuel
  induction fuel with
  | zero => intro a x hx; cases hx
  | succ f ih =>
    intro a x hx
    unfold collect_descendants at hx
    rcases List.mem_flatMap.mp hx with ⟨c, hc, hxc⟩
    rcases List.mem_cons.mp hxc with hxc | hxc
    · exact ⟨[], hxc ▸ hc, trivial⟩
    · rcases ih c x hxc with ⟨l', hl'⟩
      exact ⟨c :: l', hc, hl'⟩

theorem isPath_snoc (p2c : List (String × List String)) :
    ∀ (l : List String) (a d s : String),
      isPath p2c a (l ++ [d]) → s ∈ (mget p2c d).getD [] →
      isPath p2c a (l ++ [d] ++ [s]) := by
  intro l
  induction l with
  | nil => exact fun a d s hpath hs => ⟨hpath.1, hs, trivial⟩
  | cons c l' ih =>
    intro a d s hpath hs
    exact ⟨hpath.1, ih c d s hpath.2 hs⟩

theorem path_rank {m : WidgetManager} {r : String → Nat}
    (hr : rankOk r m) (hlr : listReg m)
    (hroot : mget m.widgets "__root__" = none)
    (p2c1 : List (String × List String))
    (hedge : ∀ a b, b ∈ (mget p2c1 a).getD [] → b ∈ childrenOf m a) :
    ∀ (l : List String) (a : String), (∃ ai, mget m.widgets a = some ai) →
      isPath p2c1 a l →
      (∀ x ∈ l, ∃ xi, mget m.widgets x = some xi) ∧
      (a :: l).Pairwise (fun u v => r u < r v) := by
  intro l
  induction l with
  | nil =>
    intro a _ _
    exact ⟨fun x hx => absurd hx (List.not_mem_nil x), List.pairwise_singleton _ a⟩
  | cons c rest ih =>
    intro a ha hpath
    rcases ha with ⟨ai, hai⟩
    rcases hpath with ⟨hc, hrest⟩
    rcases hlr a c (hedge a c hc) with ⟨ci, hci, hpci⟩
    have hanr : a ≠ "__root__" := by
      intro e
      rw [e, hroot] at hai
      cases hai
    have hlt : r a < r c := by
      rcases hr c ci hci with hl | ⟨pinfo, hp, hplt⟩
      · exact absurd (hpci ▸ hl) hanr
      · rwa [hpci] at hplt
    rcases ih c ⟨ci, hci⟩ hrest with ⟨hmem, hpw⟩
    refine ⟨?_, ?_⟩
    · intro x hx
      rcases List.mem_cons.mp hx with hx | hx
      · exact ⟨ci, hx ▸ hci⟩
      · exact hmem x hx
    · refine List.pairwise_cons.mpr ⟨?_, hpw⟩
      intro b hb
      rcases List.mem_cons.mp hb with hb | hb
      · exact hb ▸ hlt
      · exact hlt.trans ((List.pairwise_cons.mp hpw).1 b hb)

theorem nodup_length_le {l K : List String} (hnd : l.Nodup)
    (hsub : ∀ x ∈ l, x ∈ K) : l.length ≤ K.length := by
  have h1 : l.toFinset.card = l.length := List.toFinset_card_of_nodup hnd
  have h2 : l.toFinset ⊆ K.toFinset := fun x hx =>
    List.mem_toFinset.mpr (hsub x (List.mem_toFinset.mp hx))
  have h3 := Finset.card_le_card h2
  have h4 := K.toFinset_card_le
  omega

theorem pairwise_lt_nodup {r : String → Nat} {l : List String}
    (h : l.Pairwise (fun u v => r u < r v)) : l.Nodup :=
  h.imp (fun {u v} (huv : r u < r v) (e : u = v) => absurd (e ▸ huv) (lt_irrefl _))

/-!
Child-list access under the registry operations.
-/

theorem mem_children_p1 {m : WidgetManager} {pk' id e c : String}
    (h : c ∈ (mget (mupd m.parent_to_children pk' (fun cs => ldelAll cs id)) e).getD []) :
    c ∈ childrenOf m e ∧ (e = pk' → c ≠ id) := by
  rw [mget_mupd] at h
  by_cases he : e = pk'
  · rw [if_pos he] at h
    cases hcs : mget m.parent_to_children e with
    | none => rw [hcs] at h; cases h
    | some cs =>
      rw [hcs] at h
      simp only [Option.map_some', Option.getD_some] at h
      rcases (mem_ldelAll cs).mp h with ⟨h1, h2⟩
      exact ⟨by unfold childrenOf; rw [hcs]; exact h1, fun _ => h2⟩
  · rw [if_neg he] at h
    exact ⟨h, fun e' => absurd e' he⟩

theorem mem_children_p1_of {m : WidgetManager} {pk' id e c : String}
    (hc : c ∈ childrenOf m e) (hne : c ≠ id) :
    c ∈ (mget (mupd m.parent_to_children pk' (fun cs => ldelAll cs id)) e).getD [] := by
  rw [mget_mupd]
  by_cases he : e = pk'
  · rw [if_pos he]
    unfold childrenOf at hc
    cases hcs : mget m.parent_to_children e with
    | none => rw [hcs] at hc; cases hc
    | some cs =>
      rw [hcs] at hc
      simp only [Option.map_some', Option.getD_some]
      exact (mem_ldelAll cs).mpr ⟨hc, hne⟩
  · rw [if_neg he]
    exact hc

theorem childrenOf_register (m : WidgetManager) (id : String) (info : WidgetInfo)
    (hid : parentKey info ≠ id) (k : String) :
    childrenOf (register_widget m id info) k =
      if k = parentKey info then childrenOf m (parentKey info) ++ [id]
      else childrenOf m k := by
  unfold register_widget childrenOf
  dsimp only
  split
  · rename_i heq
    by_cases hk : k = parentKey info
    · rw [hk, mget_mset_self, if_pos rfl]
      rfl
    · rw [mget_mset_ne hk, if_neg hk]
  · rename_i heq
    have hidpk : (id : String) ≠ parentKey info := fun e => hid e.symm
    rw [mget_mset_ne hidpk] at heq
    by_cases hk : k = id
    · rw [hk, mget_mset_self, if_neg (fun e => hid e.symm)]
      rw [heq]
      rfl
    · rw [mget_mset_ne hk]
      by_cases hk2 : k = parentKey info
      · rw [hk2, mget_mset_self, if_pos rfl]
        rfl
      · rw [mget_mset_ne hk2, if_neg hk2]

theorem not_mem_children_of_unregistered {m : WidgetManager} (hlr : listReg m)
    {x : String} (hfresh : mget m.widgets x = none) (k : String) :
    x ∉ childrenOf m k := by
  intro hx
  rcases hlr k x hx with ⟨ci, hci, -⟩
  rw [hfresh] at hci
  cases hci

theorem childrenOf_empty_of_unregistered {m : WidgetManager} (hInv : RegInv m)
    {x : String} (hfresh : mget m.widgets x = none) (hroot : x ≠ "__root__") :
    childrenOf m x = [] := by
  cases hc : childrenOf m x with
  | nil => rfl
  | cons c rest =>
    exfalso
    have hcm : c ∈ childrenOf m x := by rw [hc]; exact List.mem_cons_self c rest
    rcases hInv.list_reg x c hcm with ⟨ci, hci, hpci⟩
    obtain ⟨r, hr⟩ := hInv.hasRank
    rcases hr c ci hci with hl | ⟨pinfo, hp, -⟩
    · exact hroot (by rw [← hpci]; exact hl)
    · rw [hpci, hfresh] at hp
      cases hp

/-!
The chain property follows from the invariant, and the invariant holds
initially and is preserved by disciplined registration.
-/

theorem chainOk_of_inv {m : WidgetManager} (hInv : RegInv m) : chainOk m := by
  obtain ⟨r, hr⟩ := hInv.hasRank
  have H : ∀ n w info, r w < n → mget m.widgets w = some info →
      ∃ fuel, chainToRoot m fuel w = true := by
    intro n
    induction n with
    | zero => intro w info h; omega
    | succ n ih =>
      intro w info hlt hw
      rcases hr w info hw with hpk | ⟨pinfo, hp, hplt⟩
      · refine ⟨1, ?_⟩
        unfold chainToRoot
        rw [hw]
        dsimp only
        cases hpid : info.parent_id with
        | none => rfl
        | some p =>
          have hpr : p = "__root__" := by
            unfold parentKey at hpk
            rw [hpid] at hpk
            exact hpk
          dsimp only
          rw [hpr, if_pos rfl]
      · have hlt2 : r (parentKey info) < n := by omega
        rcases ih (parentKey info) pinfo hlt2 hp with ⟨f, hf⟩
        refine ⟨f + 1, ?_⟩
        unfold chainToRoot
        rw [hw]
        dsimp only
        cases hpid : info.parent_id with
        | none => rfl
        | some p =>
          dsimp only
          by_cases hpr : p = "__root__"
          · rw [hpr, if_pos rfl]
          · rw [if_neg hpr]
            have hpk_eq : parentKey info = p := by
              unfold parentKey
              rw [hpid]
              rfl
            rw [hpk_eq] at hf
            exact hf
  intro w hw
  cases hwv : mget m.widgets w with
  | none => rw [hwv] at hw; cases hw
  | some info => exact H (r w + 1) w info (Nat.lt_succ_self _) hwv

theorem RegInv_new : RegInv WidgetManager.new := by
  have hmge : ∀ x, mget WidgetManager.new.widgets x = none := fun _ => rfl
  have hch : ∀ k, childrenOf WidgetManager.new k = [] := by
    intro k
    unfold childrenOf WidgetManager.new
    dsimp only
    by_cases hk : ("__root__" : String) = k
    · simp [mget, hk]
    · simp [mget, hk]
  refine ⟨rfl, ⟨fun _ => 0, ?_⟩, ?_, ?_, ?_, ?_⟩
  · intro w info h
    rw [hmge w] at h
    cases h
  · intro w info h
    rw [hmge w] at h
    cases h
  · intro k c hc
    rw [hch k] at hc
    cases hc
  · intro c k1 k2 h1 h2
    rw [hch k1] at h1
    cases h1
  · intro k
    rw [hch k]
    exact List.nodup_nil

theorem RegInv_register {m : WidgetManager} {id : String} {info : WidgetInfo}
    (hInv : RegInv m)
    (hfresh : mget m.widgets id = none)
    (hroot : id ≠ "__root__")
    (hpar : info.parent_id = none ∨
      ∃ p pi, info.parent_id = some p ∧ mget m.widgets p = some pi) :
    RegInv (register_widget m id info) := by
  obtain ⟨r, hr⟩ := hInv.hasRank
  have hpar' : parentKey info = "__root__" ∨
      ∃ pki, mget m.widgets (parentKey info) = some pki := by
    rcases hpar with h | ⟨p, pi, hp, hpi⟩
    · left; unfold parentKey; rw [h]; rfl
    · right
      refine ⟨pi, ?_⟩
      unfold parentKey
      rw [hp]
      exact hpi
  have hpkid : parentKey info ≠ id := by
    rcases hpar' with h | ⟨pki, hpki⟩
    · rw [h]; exact fun e => hroot e.symm
    · intro e
      rw [e, hfresh] at hpki
      cases hpki
  have hch := childrenOf_register m id info hpkid
  have hwget : ∀ x, x ≠ id →
      mget (register_widget m id info).widgets x = mget m.widgets x := by
    intro x hx
    unfold register_widget
    dsimp only
    exact mget_mset_ne hx m.widgets info
  have hwid : mget (register_widget m id info).widgets id = some info := by
    unfold register_widget
    dsimp only
    exact mget_mset_self m.widgets id info
  have hmemch : ∀ k c, c ∈ childrenOf (register_widget m id info) k →
      c ∈ childrenOf m k ∨ (k = parentKey info ∧ c = id) := by
    intro k c hc
    rw [hch k] at hc
    by_cases hk : k = parentKey info
    · rw [if_pos hk] at hc
      rcases List.mem_append.mp hc with hc | hc
      · left; rw [hk]; exact hc
      · right; exact ⟨hk, List.mem_singleton.mp hc⟩
    · rw [if_neg hk] at hc
      left; exact hc
  have hidnotold : ∀ k, id ∉ childrenOf m k :=
    not_mem_children_of_unregistered hInv.list_reg hfresh
  refine ⟨?_, ?_, ?_, ?_, ?_, ?_⟩
  · rw [hwget "__root__" (fun e => hroot e.symm)]
    exact hInv.rootAbsent
  · refine ⟨fun x => if x = id then r (parentKey info) + 1 else r x, ?_⟩
    intro w wi hw
    by_cases hwidq : w = id
    · subst hwidq
      rw [hwid] at hw
      injection hw with hw
      subst hw
      rcases hpar' with h | ⟨pki, hpki⟩
      · left; exact h
      · right
        refine ⟨pki, ?_, ?_⟩
        · rw [hwget (parentKey info) hpkid]
          exact hpki
        · dsimp only
          rw [if_neg hpkid, if_pos rfl]
          omega
    · rw [hwget w hwidq] at hw
      rcases hr w wi hw with h | ⟨pinfo, hp, hplt⟩
      · left; exact h
      · right
        have hpkw : parentKey wi ≠ id := by
          intro e
          rw [e, hfresh] at hp
          cases hp
        refine ⟨pinfo, ?_, ?_⟩
        · rw [hwget (parentKey wi) hpkw]
          exact hp
        · dsimp only
          rw [if_neg hpkw, if_neg hwidq]
          exact hplt
  · intro w wi hw
    by_cases hwidq : w = id
    · subst hwidq
      rw [hwid] at hw
      injection hw with hw
      subst hw
      rw [hch (parentKey info), if_pos rfl]
      exact List.mem_append.mpr (Or.inr (List.mem_singleton.mpr rfl))
    · rw [hwget w hwidq] at hw
      have hold := hInv.child_mem w wi hw
      rw [hch (parentKey wi)]
      by_cases hk : parentKey wi = parentKey info
      · rw [if_pos hk]
        exact List.mem_append.mpr (Or.inl (hk ▸ hold))
      · rw [if_neg hk]
        exact hold
  · intro k c hc
    rcases hmemch k c hc with hc | ⟨hk, hc⟩
    · rcases hInv.list_reg k c hc with ⟨ci, hci, hpci⟩
      have hcid : c ≠ id := by
        intro e
        rw [e, hfresh] at hci
        cases hci
      exact ⟨ci, by rw [hwget c hcid]; exact hci, hpci⟩
    · subst hc
      exact ⟨info, hwid, hk.symm⟩
  · intro c k1 k2 h1 h2
    rcases hmemch k1 c h1 with h1' | ⟨hk1, hc1⟩
    · rcases hmemch k2 c h2 with h2' | ⟨hk2, hc2⟩
      · exact hInv.occ_once c k1 k2 h1' h2'
      · exact absurd (hc2 ▸ h1') (hidnotold k1)
    · rcases hmemch k2 c h2 with h2' | ⟨hk2, hc2⟩
      · exact absurd (hc1 ▸ h2') (hidnotold k2)
      · rw [hk1, hk2]
  · intro k
    rw [hch k]
    by_cases hk : k = parentKey info
    · rw [if_pos hk]
      refine List.Nodup.append (hInv.each_nodup (parentKey info)) (List.nodup_singleton id) ?_
      intro a ha hb
      rw [List.mem_singleton.mp hb] at ha
      exact hidnotold (parentKey info) ha
    · rw [if_neg hk]
      exact hInv.each_nodup k

/-!
The invariant is preserved by `remove_widget_subtree` (for any argument).
-/

theorem RegInv_remove (m : WidgetManager) (id : String) (hInv : RegInv m) :
    RegInv (remove_widget_subtree m id).2 := by
  cases hid : mget m.widgets id with
  | none =>
    have hpost : (remove_widget_subtree m id).2 = m := by
      unfold remove_widget_subtree
      rw [hid]
    rw [hpost]
    exact hInv
  | some rinfo =>
    obtain ⟨r, hr⟩ := hInv.hasRank
    have hpost : (remove_widget_subtree m id).2 =
        recompute_parent_state
          { widgets := (descendantsOf m id).foldl mdel (mdel m.widgets id)
            parent_to_children :=
              mdel ((descendantsOf m id).foldl mdel
                (mupd m.parent_to_children (parentKey rinfo) (fun cs => ldelAll cs id))) id }
          (parentKey rinfo) := by
      unfold remove_widget_subtree
      rw [hid]
    rw [hpost]
    set pk := parentKey rinfo with hpkdef
    set w1 := mdel m.widgets id with hw1def
    set p1 := mupd m.parent_to_children pk (fun cs => ldelAll cs id) with hp1def
    set D := descendantsOf m id with hDdef
    set w2 := D.foldl mdel w1 with hw2def
    set p3 := mdel (D.foldl mdel p1) id with hp3def
    have hD : D = collect_descendants p1 (w1.length + 1) id := by
      rw [hDdef, hw1def, hp1def, hpkdef]
      unfold descendantsOf
      rw [hid]
    have hidroot : id ≠ "__root__" := by
      intro e
      rw [e, hInv.rootAbsent] at hid
      cases hid
    have hedge : ∀ a b, b ∈ (mget p1 a).getD [] → b ∈ childrenOf m a := by
      intro a b h
      rw [hp1def] at h
      exact (mem_children_p1 h).1
    have hDspec : ∀ d ∈ D, d ≠ id ∧
        ∃ di, mget m.widgets d = some di ∧ (parentKey di = id ∨ parentKey di ∈ D) := by
      intro d hd
      rw [hD] at hd
      rcases collect_elim_edge p1 (w1.length + 1) id d hd with ⟨e, he, hde⟩
      have hde' := hde
      rw [hp1def] at hde'
      rcases mem_children_p1 hde' with ⟨hdm, hepk⟩
      rcases hInv.list_reg e d hdm with ⟨di, hdi, hpdi⟩
      have hdid : d ≠ id := by
        by_cases he2 : e = pk
        · exact hepk he2
        · intro e'
          subst e'
          exact he2 (hInv.occ_once d e pk hdm
            (by rw [hpkdef]; exact hInv.child_mem d rinfo hid))
      refine ⟨hdid, di, hdi, ?_⟩
      rcases he with he | he
      · left; rw [hpdi, he]
      · right; rw [hpdi, hD]; exact he
    have hDreg : ∀ d ∈ D, ∃ di, mget m.widgets d = some di :=
      fun d hd => (hDspec d hd).2.imp (fun _ h => h.1)
    have hDnid : ∀ d ∈ D, d ≠ id := fun d hd => (hDspec d hd).1
    have hidD : id ∉ D := fun h => hDnid id h rfl
    have hclosed : ∀ s si, mget m.widgets s = some si →
        parentKey si = id ∨ parentKey si ∈ D → s = id ∨ s ∈ D := by
      intro s si hs hQ
      by_cases hsid : s = id
      · exact Or.inl hsid
      right
      have hsQ : s ∈ childrenOf m (parentKey si) := hInv.child_mem s si hs
      have hsp1 : s ∈ (mget p1 (parentKey si)).getD [] := by
        rw [hp1def]
        exact mem_children_p1_of hsQ hsid
      rcases hQ with hQ | hQ
      · rw [hD]
        refine mem_collect_intro p1 [] (w1.length + 1) id s ⟨?_, trivial⟩ (by simp)
        rw [← hQ]
        exact hsp1
      · rw [hD] at hQ
        rcases collect_elim_path p1 (w1.length + 1) id (parentKey si) hQ with ⟨l, hpath⟩
        rcases path_rank hr hInv.list_reg hInv.rootAbsent p1 hedge
          (l ++ [parentKey si]) id ⟨rinfo, hid⟩ hpath with ⟨hmem, hpw⟩
        have hnd : (id :: (l ++ [parentKey si])).Nodup := pairwise_lt_nodup hpw
        have hidnotin : id ∉ l ++ [parentKey si] := (List.nodup_cons.mp hnd).1
        have hnd2 : (l ++ [parentKey si]).Nodup := (List.nodup_cons.mp hnd).2
        have hsubk : ∀ x ∈ l ++ [parentKey si], x ∈ w1.map Prod.fst := by
          intro x hx
          rcases hmem x hx with ⟨xi, hxi⟩
          have hxid : x ≠ id := by
            intro e
            rw [e] at hx
            exact hidnotin hx
          have hx1 : mget w1 x = some xi := by
            rw [hw1def, mget_mdel_ne hxid]
            exact hxi
          exact mem_keys_of_mget w1 hx1
        have hlen : (l ++ [parentKey si]).length ≤ w1.length := by
          have h := nodup_length_le hnd2 hsubk
          rwa [List.length_map] at h
        have hpath2 : isPath p1 id ((l ++ [parentKey si]) ++ [s]) :=
          isPath_snoc p1 l id (parentKey si) s hpath hsp1
        rw [hD]
        refine mem_collect_intro p1 (l ++ [parentKey si]) (w1.length + 1) id s hpath2 ?_
        omega
    have hw2some : ∀ x, x ≠ id → x ∉ D → mget w2 x = mget m.widgets x := by
      intro x hxid hxD
      rw [hw2def, mget_foldl_mdel_notMem D w1 hxD, hw1def, mget_mdel_ne hxid]
    have hw2none : ∀ x, x = id ∨ x ∈ D → mget w2 x = none := by
      intro x hx
      rcases hx with hx | hx
      · subst hx
        rw [hw2def, mget_foldl_mdel_notMem D w1 hidD, hw1def, mget_mdel_self]
      · rw [hw2def]
        exact mget_foldl_mdel_mem D w1 hx
    have hp3get : ∀ k, k ≠ id → k ∉ D → mget p3 k = mget p1 k := by
      intro k hkid hkD
      rw [hp3def, mget_mdel_ne hkid, mget_foldl_mdel_notMem D p1 hkD]
    have hp3none : ∀ k, k = id ∨ k ∈ D → mget p3 k = none := by
      intro k hk
      rcases hk with hk | hk
      · subst hk
        rw [hp3def, mget_mdel_self]
      · rw [hp3def, mget_mdel_ne (hDnid k hk), mget_foldl_mdel_mem D p1 hk]
    have hm'p2c :
        (recompute_parent_state { widgets := w2, parent_to_children := p3 } pk).parent_to_children
          = p3 := by
      unfold recompute_parent_state
      cases mget p3 pk <;> rfl
    have hch' : ∀ k,
        childrenOf (recompute_parent_state { widgets := w2, parent_to_children := p3 } pk) k
          = (mget p3 k).getD [] := by
      intro k
      unfold childrenOf
      rw [hm'p2c]
    have hmemc' : ∀ k c,
        c ∈ childrenOf (recompute_parent_state
            { widgets := w2, parent_to_children := p3 } pk) k →
        k ≠ id ∧ k ∉ D ∧ c ∈ (mget p1 k).getD [] := by
      intro k c hc
      rw [hch' k] at hc
      by_cases hkid : k = id
      · rw [hp3none k (Or.inl hkid)] at hc
        cases hc
      · by_cases hkD : k ∈ D
        · rw [hp3none k (Or.inr hkD)] at hc
          cases hc
        · rw [hp3get k hkid hkD] at hc
          exact ⟨hkid, hkD, hc⟩
    have hlistlift : ∀ k c, k ≠ id → k ∉ D → c ∈ (mget p1 k).getD [] →
        ∃ ci, mget m.widgets c = some ci ∧ parentKey ci = k ∧ c ≠ id ∧ c ∉ D := by
      intro k c hkid hkD hc
      have hc' := hc
      rw [hp1def] at hc'
      rcases mem_children_p1 hc' with ⟨hcm, hcpk⟩
      rcases hInv.list_reg k c hcm with ⟨ci, hci, hpci⟩
      have hcid : c ≠ id := by
        intro e
        subst e
        rw [hid] at hci
        injection hci with hci
        exact hcpk (by rw [hpkdef, hci]; exact hpci.symm) rfl
      have hcD : c ∉ D := by
        intro hcd
        rcases hDspec c hcd with ⟨-, di, hdi, hQ⟩
        rw [hci] at hdi
        injection hdi with hdi
        subst hdi
        rw [hpci] at hQ
        rcases hQ with hQ | hQ
        · exact hkid hQ
        · exact hkD hQ
      exact ⟨ci, hci, hpci, hcid, hcD⟩
    have hWsome : ∀ x xi',
        mget (recompute_parent_state
          { widgets := w2, parent_to_children := p3 } pk).widgets x = some xi' →
        ∃ xi, mget w2 x = some xi ∧ xi'.widget_id = xi.widget_id ∧
          xi'.kind = xi.kind ∧ xi'.parent_id = xi.parent_id := by
      intro x xi' hx
      rcases mget_recompute_shape { widgets := w2, parent_to_children := p3 } pk x with
        ⟨h1, h2⟩ | ⟨i', i, h1, h2, ha, hb, hc⟩
      · rw [hx] at h1
        cases h1
      · rw [hx] at h1
        injection h1 with h1
        subst h1
        exact ⟨i, h2, ha, hb, hc⟩
    have hWsome' : ∀ x xi, mget w2 x = some xi →
        ∃ xi', mget (recompute_parent_state
          { widgets := w2, parent_to_children := p3 } pk).widgets x = some xi' ∧
          xi'.widget_id = xi.widget_id ∧ xi'.kind = xi.kind ∧
          xi'.parent_id = xi.parent_id := by
      intro x xi hx
      rcases mget_recompute_shape { widgets := w2, parent_to_children := p3 } pk x with
        ⟨h1, h2⟩ | ⟨i', i, h1, h2, ha, hb, hc⟩
      · rw [hx] at h2
        cases h2
      · rw [hx] at h2
        injection h2 with h2
        subst h2
        exact ⟨i', h1, ha, hb, hc⟩
    have hWnone : ∀ x, mget w2 x = none →
        mget (recompute_parent_state
          { widgets := w2, parent_to_children := p3 } pk).widgets x = none := by
      intro x hx
      rcases mget_recompute_shape { widgets := w2, parent_to_children := p3 } pk x with
        ⟨h1, h2⟩ | ⟨i', i, h1, h2, ha, hb, hc⟩
      · exact h1
      · rw [hx] at h2
        cases h2
    have hback : ∀ x xi',
        mget (recompute_parent_state
          { widgets := w2, parent_to_children := p3 } pk).widgets x = some xi' →
        ∃ xi, mget m.widgets x = some xi ∧ x ≠ id ∧ x ∉ D ∧
          xi'.widget_id = xi.widget_id ∧ xi'.kind = xi.kind ∧
          xi'.parent_id = xi.parent_id := by
      intro x xi' hx
      rcases hWsome x xi' hx with ⟨xi, hx2, ha, hb, hc⟩
      have hxid : x ≠ id := by
        intro e
        rw [hw2none x (Or.inl e)] at hx2
        cases hx2
      have hxD : x ∉ D := by
        intro e
        rw [hw2none x (Or.inr e)] at hx2
        cases hx2
      rw [hw2some x hxid hxD] at hx2
      exact ⟨xi, hx2, hxid, hxD, ha, hb, hc⟩
    have hparentEq : ∀ (a b : WidgetInfo), a.parent_id = b.parent_id →
        parentKey a = parentKey b := by
      intro a b h
      unfold parentKey
      rw [h]
    refine ⟨?_, ?_, ?_, ?_, ?_, ?_⟩
    · apply hWnone
      have hrid : ("__root__" : String) ≠ id := fun e => hidroot e.symm
      have hrD : ("__root__" : String) ∉ D := by
        intro h
        rcases hDreg _ h with ⟨di, hdi⟩
        rw [hInv.rootAbsent] at hdi
        cases hdi
      rw [hw2some _ hrid hrD]
      exact hInv.rootAbsent
    · refine ⟨r, ?_⟩
      intro w wi' hw'
      rcases hback w wi' hw' with ⟨wi, hWw, hwid, hwD, -, -, hfpar⟩
      have hpkEq : parentKey wi' = parentKey wi := hparentEq _ _ hfpar
      rcases hr w wi hWw with h | ⟨pinfo, hp, hplt⟩
      · left
        rw [hpkEq]
        exact h
      · right
        have hQ : parentKey wi ≠ id ∧ parentKey wi ∉ D := by
          constructor
          · intro e
            rcases hclosed w wi hWw (Or.inl e) with e' | e'
            · exact hwid e'
            · exact hwD e'
          · intro e
            rcases hclosed w wi hWw (Or.inr e) with e' | e'
            · exact hwid e'
            · exact hwD e'
        have hp2 : mget w2 (parentKey wi) = some pinfo := by
          rw [hw2some _ hQ.1 hQ.2]
          exact hp
        rcases hWsome' _ _ hp2 with ⟨pinfo', hp', -, -, -⟩
        refine ⟨pinfo', ?_, ?_⟩
        · rw [hpkEq]
          exact hp'
        · rw [hpkEq]
          exact hplt
    · intro w wi' hw'
      rcases hback w wi' hw' with ⟨wi, hWw, hwid, hwD, -, -, hfpar⟩
      have hpkEq : parentKey wi' = parentKey wi := hparentEq _ _ hfpar
      have hQ : parentKey wi ≠ id ∧ parentKey wi ∉ D := by
        constructor
        · intro e
          rcases hclosed w wi hWw (Or.inl e) with e' | e'
          · exact hwid e'
          · exact hwD e'
        · intro e
          rcases hclosed w wi hWw (Or.inr e) with e' | e'
          · exact hwid e'
          · exact hwD e'
      rw [hpkEq, hch' (parentKey wi), hp3get _ hQ.1 hQ.2, hp1def]
      exact mem_children_p1_of (hInv.child_mem w wi hWw) hwid
    · intro k c hc
      rcases hmemc' k c hc with ⟨hkid, hkD, hcp1⟩
      rcases hlistlift k c hkid hkD hcp1 with ⟨ci, hci, hpci, hcid, hcD⟩
      have hc2 : mget w2 c = some ci := by
        rw [hw2some c hcid hcD]
        exact hci
      rcases hWsome' c ci hc2 with ⟨ci', hci', -, -, hfpar⟩
      exact ⟨ci', hci', by rw [hparentEq _ _ hfpar]; exact hpci⟩
    · intro c k1 k2 h1 h2
      rcases hmemc' k1 c h1 with ⟨-, -, hc1⟩
      rcases hmemc' k2 c h2 with ⟨-, -, hc2⟩
      rw [hp1def] at hc1 hc2
      exact hInv.occ_once c k1 k2 (mem_children_p1 hc1).1 (mem_children_p1 hc2).1
    · intro k
      rw [hch' k]
      cases hk3 : mget p3 k with
      | none => exact List.nodup_nil
      | some l =>
        have hkid : k ≠ id := by
          intro e
          rw [hp3none k (Or.inl e)] at hk3
          cases hk3
        have hkD : k ∉ D := by
          intro e
          rw [hp3none k (Or.inr e)] at hk3
          cases hk3
        rw [hp3get k hkid hkD, hp1def, mget_mupd] at hk3
        by_cases hkpk : k = pk
        · rw [if_pos hkpk] at hk3
          cases hcs : mget m.parent_to_children k with
          | none => rw [hcs] at hk3; cases hk3
          | some cs =>
            rw [hcs] at hk3
            simp only [Option.map_some', Option.getD_some] at hk3 ⊢
            injection hk3 with hk3
            rw [← hk3]
            have hnd : cs.Nodup := by
              have := hInv.each_nodup k
              unfold childrenOf at this
              rw [hcs] at this
              exact this
            exact (ldelAll_sublist cs id).nodup hnd
        · rw [if_neg hkpk] at hk3
          simp only [Option.getD_some]
          have := hInv.each_nodup k
          unfold childrenOf at this
          rw [hk3] at this
          exact this

theorem RegInv_applyOps : ∀ (ops : List Op) (m : WidgetManager), RegInv m →
    disciplinedFrom m ops = true → RegInv (ops.foldl applyOp m) := by
  intro ops
  induction ops with
  | nil => intro m h _; exact h
  | cons op rest ih =>
    intro m hInv hd
    unfold disciplinedFrom at hd
    rw [Bool.and_eq_true] at hd
    rcases hd with ⟨hstep, hrest⟩
    rw [List.foldl_cons]
    refine ih (applyOp m op) ?_ hrest
    cases op with
    | register id info =>
      unfold disciplinedStep at hstep
      rw [Bool.and_eq_true, Bool.and_eq_true] at hstep
      rcases hstep with ⟨⟨hfresh, hroot⟩, hpar⟩
      refine RegInv_register hInv (Option.isNone_iff_eq_none.mp hfresh) ?_ ?_
      · intro e
        subst e
        simp at hroot
      · cases hpid : info.parent_id with
        | none => exact Or.inl rfl
        | some p =>
          rw [hpid] at hpar
          have hpar2 : (mget m.widgets p).isSome = true := hpar
          right
          cases hpv : mget m.widgets p with
          | none => rw [hpv] at hpar2; cases hpar2
          | some pi => exact ⟨p, pi, rfl, hpv⟩
    | remove rid => exact RegInv_remove m rid hInv

/-- C2 counterexample: the claim quantifies over arbitrary call sequences,
but registering "A" with itself as parent (a single `register_widget` call)
yields a state whose parent chain from "A" cycles and never reaches the root
sentinel, refuting the claim as stated. -/
theorem C2_cex :
    ¬ chainOk (applyOps [.register "A" ⟨0, .Button, some "A", 0⟩]) := by
  intro h
  have hA : mget (applyOps [Op.register "A" ⟨0, .Button, some "A", 0⟩]).widgets "A" =
      some ⟨0, .Button, some "A", 0⟩ := by decide
  rcases h "A" (by rw [hA]; rfl) with ⟨f, hf⟩
  have hfalse : ∀ g,
      chainToRoot (applyOps [Op.register "A" ⟨0, .Button, some "A", 0⟩]) g "A" = false := by
    intro g
    induction g with
    | zero => rfl
    | succ g ih =>
      unfold chainToRoot
      rw [hA]
      dsimp only
      rw [if_neg (by decide : ¬ ("A" : String) = "__root__")]
      exact ih
  rw [hfalse f] at hf
  cases hf

/-- C2 (amended): for every state reachable from the fresh registry by a
disciplined call sequence (each `register_widget` uses an id that is not
currently registered and is not the root sentinel, and a parent that is
absent or currently registered — exactly the dispatcher's use; removals are
unrestricted), the parent chain of every registered id terminates at the
root sentinel `"__root__"` and contains no cycle. -/
theorem C2_theorem (ops : List Op)
    (h : disciplinedFrom WidgetManager.new ops = true) :
    chainOk (applyOps ops) :=
  chainOk_of_inv (RegInv_applyOps ops WidgetManager.new RegInv_new h)

/-- C2 witness: a disciplined register-register-remove sequence. -/
theorem C2_witness :
    disciplinedFrom WidgetManager.new
        [Op.register "A" ⟨0, .Button, none, 0⟩,
         Op.register "B" ⟨1, .Label, some "A", 0⟩,
         Op.remove "A"] = true ∧
      chainOk (applyOps
        [Op.register "A" ⟨0, .Button, none, 0⟩,
         Op.register "B" ⟨1, .Label, some "A", 0⟩,
         Op.remove "A"]) :=
  ⟨by decide, C2_theorem _ (by decide)⟩

/-- C7 counterexample: the claim quantifies over arbitrary call sequences,
but registering the same id "A" twice puts "A" twice into the root's child
list, so "A" occurs more than once across the union of the child lists. -/
theorem C7_cex :
    ¬ (occOnce (applyOps [.register "A" ⟨0, .Button, none, 0⟩,
          .register "A" ⟨1, .Button, none, 1⟩]) ∧
        eachNodup (applyOps [.register "A" ⟨0, .Button, none, 0⟩,
          .register "A" ⟨1, .Button, none, 1⟩])) := by
  rintro ⟨-, h2⟩
  have hc : childrenOf (applyOps [Op.register "A" ⟨0, .Button, none, 0⟩,
      Op.register "A" ⟨1, .Button, none, 1⟩]) "__root__" = ["A", "A"] := by decide
  have hnd := h2 "__root__"
  rw [hc] at hnd
  exact (by decide : ¬ (["A", "A"] : List String).Nodup) hnd

/-- C7 (amended): in every state reachable from the fresh registry by a
disciplined call sequence (fresh non-sentinel ids, absent-or-registered
parents, unrestricted removals), every id occurs at most once across the
union of all child lists: an id sits in at most one list (`occOnce`) and no
list repeats an id (`eachNodup`). -/
theorem C7_theorem (ops : List Op)
    (h : disciplinedFrom WidgetManager.new ops = true) :
    occOnce (applyOps ops) ∧ eachNodup (applyOps ops) :=
  ⟨(RegInv_applyOps ops WidgetManager.new RegInv_new h).occ_once,
   (RegInv_applyOps ops WidgetManager.new RegInv_new h).each_nodup⟩

/-- C7 witness: a disciplined sequence with two siblings and one removal. -/
theorem C7_witness :
    disciplinedFrom WidgetManager.new
        [Op.register "A" ⟨0, .Flex, none, 0⟩,
         Op.register "B" ⟨1, .Label, some "A", 0⟩,
         Op.register "C" ⟨2, .Label, some "A", 1⟩,
         Op.remove "B"] = true ∧
      (occOnce (applyOps
        [Op.register "A" ⟨0, .Flex, none, 0⟩,
         Op.register "B" ⟨1, .Label, some "A", 0⟩,
         Op.register "C" ⟨2, .Label, some "A", 1⟩,
         Op.remove "B"]) ∧
       eachNodup (applyOps
        [Op.register "A" ⟨0, .Flex, none, 0⟩,
         Op.register "B" ⟨1, .Label, some "A", 0⟩,
         Op.register "C" ⟨2, .Label, some "A", 1⟩,
         Op.remove "B"])) :=
  ⟨by decide, C7_theorem _ (by decide)⟩

/-!
Fuel independence of descendant collection on invariant states: with enough
fuel, `collect_descendants` computes the same list however much more fuel it
is given, so on these states the bounded model coincides with the source's
unbounded recursion.
-/

theorem flatMap_congr_mem {α β : Type} {l : List α} {f g : α → List β}
    (h : ∀ x ∈ l, f x = g x) : l.flatMap f = l.flatMap g := by
  induction l with
  | nil => rfl
  | cons x l ih =>
    simp only [List.flatMap_cons]
    rw [h x (List.mem_cons_self x l), ih (fun y hy => h y (List.mem_cons_of_mem x hy))]

theorem collect_stable_aux (p1 : List (String × List String)) (r : String → Nat)
    (K : Finset String) (G : String → Prop)
    (hedge : ∀ a c, G a → c ∈ (mget p1 a).getD [] → G c ∧ c ∈ K ∧ r a < r c) :
    ∀ (n : Nat) (a : String), G a → (K.filter (fun x => r a < r x)).card ≤ n →
      ∀ f g, n + 1 ≤ f → n + 1 ≤ g →
        collect_descendants p1 f a = collect_descendants p1 g a := by
  intro n
  induction n with
  | zero =>
    intro a hGa hcard f g hf hg
    have hempty : (mget p1 a).getD [] = [] := by
      cases hch : (mget p1 a).getD [] with
      | nil => rfl
      | cons c rest =>
        exfalso
        have hc : c ∈ (mget p1 a).getD [] := by
          rw [hch]
          exact List.mem_cons_self c rest
        rcases hedge a c hGa hc with ⟨-, hcK, hrc⟩
        have hcmem : c ∈ K.filter (fun x => r a < r x) :=
          Finset.mem_filter.mpr ⟨hcK, hrc⟩
        have := Finset.card_pos.mpr ⟨c, hcmem⟩
        omega
    cases f with
    | zero => omega
    | succ f' =>
      cases g with
      | zero => omega
      | succ g' =>
        unfold collect_descendants
        rw [hempty]
        rfl
  | succ n ih =>
    intro a hGa hcard f g hf hg
    cases f with
    | zero => omega
    | succ f' =>
      cases g with
      | zero => omega
      | succ g' =>
        unfold collect_descendants
        refine flatMap_congr_mem ?_
        intro c hc
        rcases hedge a c hGa hc with ⟨hGc, hcK, hrc⟩
        have hsub : K.filter (fun x => r c < r x) ⊆ K.filter (fun x => r a < r x) := by
          intro x hx
          rcases Finset.mem_filter.mp hx with ⟨h1, h2⟩
          exact Finset.mem_filter.mpr ⟨h1, hrc.trans h2⟩
        have hcmem : c ∈ K.filter (fun x => r a < r x) :=
          Finset.mem_filter.mpr ⟨hcK, hrc⟩
        have hcnot : c ∉ K.filter (fun x => r c < r x) := by
          intro h
          exact absurd (Finset.mem_filter.mp h).2 (lt_irrefl _)
        have hlt : (K.filter (fun x => r c < r x)).card <
            (K.filter (fun x => r a < r x)).card :=
          Finset.card_lt_card ((Finset.ssubset_iff_of_subset hsub).mpr ⟨c, hcmem, hcnot⟩)
        have hle : (K.filter (fun x => r c < r x)).card ≤ n := by omega
        rw [ih c hGc hle f' g' (by omega) (by omega)]

theorem descendantsOf_stable (m : WidgetManager) (id : String) (rinfo : WidgetInfo)
    (hInv : RegInv m) (hid : mget m.widgets id = some rinfo) :
    ∀ f, (mdel m.widgets id).length + 1 ≤ f →
      collect_descendants
        (mupd m.parent_to_children (parentKey rinfo) (fun cs => ldelAll cs id)) f id =
      descendantsOf m id := by
  obtain ⟨r, hr⟩ := hInv.hasRank
  set pk := parentKey rinfo with hpkdef
  set w1 := mdel m.widgets id with hw1def
  set p1 := mupd m.parent_to_children pk (fun cs => ldelAll cs id) with hp1def
  have hedge : ∀ a c, (∃ ai, mget m.widgets a = some ai) →
      c ∈ (mget p1 a).getD [] →
      (∃ ci, mget m.widgets c = some ci) ∧ c ∈ (w1.map Prod.fst).toFinset ∧
        r a < r c := by
    intro a c hGa hc
    rcases hGa with ⟨ai, hai⟩
    have hc' := hc
    rw [hp1def] at hc'
    rcases mem_children_p1 hc' with ⟨hcm, hcpk⟩
    rcases hInv.list_reg a c hcm with ⟨ci, hci, hpci⟩
    have hanr : a ≠ "__root__" := by
      intro e
      rw [e, hInv.rootAbsent] at hai
      cases hai
    have hrc : r a < r c := by
      rcases hr c ci hci with hl | ⟨pinfo, hp, hplt⟩
      · exact absurd (hpci ▸ hl) hanr
      · rwa [hpci] at hplt
    have hcid : c ≠ id := by
      by_cases ha2 : a = pk
      · exact hcpk ha2
      · intro e
        subst e
        exact ha2 (hInv.occ_once c a pk hcm
          (by rw [hpkdef]; exact hInv.child_mem c rinfo hid))
    have hc1 : mget w1 c = some ci := by
      rw [hw1def, mget_mdel_ne hcid]
      exact hci
    exact ⟨⟨ci, hci⟩, List.mem_toFinset.mpr (mem_keys_of_mget w1 hc1), hrc⟩
  have hcard : ((w1.map Prod.fst).toFinset.filter (fun x => r id < r x)).card ≤
      w1.length := by
    have h1 := Finset.card_filter_le (w1.map Prod.fst).toFinset (fun x => r id < r x)
    have h2 := (w1.map Prod.fst).toFinset_card_le
    rw [List.length_map] at h2
    omega
  intro f hf
  have hstable := collect_stable_aux p1 r (w1.map Prod.fst).toFinset
    (fun a => ∃ ai, mget m.widgets a = some ai) hedge w1.length id ⟨rinfo, hid⟩
    hcard f (w1.length + 1) (by omega) (by omega)
  rw [hstable]
  rw [hp1def, hpkdef, hw1def]
  unfold descendantsOf
  rw [hid]

/-- C10 (amended): for every state reachable from the fresh registry by a
disciplined call sequence (as for C2/C7: fresh non-sentinel ids,
absent-or-registered parents, unrestricted removals) and every registered
`id`, after `remove_widget_subtree id` every widget that is neither `id` nor
one of `id`'s collected descendants keeps its record with `widget_id`,
`kind`, and `parent_id` unchanged, and if its parent key differs from the
removed widget's parent key its `child_index` is also unchanged.  On such
states the collected-descendant set equals the source's unbounded
depth-first walk by `descendantsOf_stable`. -/
theorem C10_theorem (ops : List Op)
    (hops : disciplinedFrom WidgetManager.new ops = true)
    (id w : String) (rinfo winfo : WidgetInfo)
    (hid : mget (applyOps ops).widgets id = some rinfo)
    (hw : mget (applyOps ops).widgets w = some winfo)
    (hne : w ≠ id)
    (hnd : w ∉ descendantsOf (applyOps ops) id) :
    ∃ winfo',
      mget (remove_widget_subtree (applyOps ops) id).2.widgets w = some winfo' ∧
      winfo'.widget_id = winfo.widget_id ∧ winfo'.kind = winfo.kind ∧
      winfo'.parent_id = winfo.parent_id ∧
      (parentKey winfo ≠ parentKey rinfo → winfo' = winfo) := by
  have hInv := RegInv_applyOps ops WidgetManager.new RegInv_new hops
  rcases remove_frame (applyOps ops) id w rinfo winfo hid hw hne hnd with
    ⟨winfo', h1, h2, h3, h4, h5⟩
  refine ⟨winfo', h1, h2, h3, h4, ?_⟩
  intro hpar
  refine h5 ?_ hpar
  intro c ci hc hci
  rcases hInv.list_reg (parentKey rinfo) c hc with ⟨ci', hci', hpci'⟩
  have hci2 : mget (applyOps ops).widgets c = some ci' := hci'
  rw [hci] at hci2
  injection hci2 with e
  rw [e]
  exact hpci'
/-- C10 witness: after the disciplined sequence registering `A` and `Z`
under the root and `Y` under `Z`, removing `A` leaves `Y`'s record exactly
unchanged (its parent key `Z` differs from `A`'s parent key `__root__`). -/
theorem C10_witness :
    disciplinedFrom WidgetManager.new
        [Op.register "A" ⟨0, .Button, none, 0⟩,
         Op.register "Z" ⟨1, .Flex, none, 1⟩,
         Op.register "Y" ⟨2, .Label, some "Z", 0⟩] = true ∧
    (∃ winfo',
      mget (remove_widget_subtree
        (applyOps [Op.register "A" ⟨0, .Button, none, 0⟩,
                   Op.register "Z" ⟨1, .Flex, none, 1⟩,
                   Op.register "Y" ⟨2, .Label, some "Z", 0⟩]) "A").2.widgets "Y" =
          some winfo' ∧
      winfo'.widget_id = (⟨2, .Label, some "Z", 0⟩ : WidgetInfo).widget_id ∧
      winfo'.kind = (⟨2, .Label, some "Z", 0⟩ : WidgetInfo).kind ∧
      winfo'.parent_id = (⟨2, .Label, some "Z", 0⟩ : WidgetInfo).parent_id ∧
      (parentKey (⟨2, .Label, some "Z", 0⟩ : WidgetInfo) ≠
          parentKey (⟨0, .Button, none, 0⟩ : WidgetInfo) →
        winfo' = ⟨2, .Label, some "Z", 0⟩)) :=
  ⟨by decide,
   C10_theorem
    [Op.register "A" ⟨0, .Button, none, 0⟩,
     Op.register "Z" ⟨1, .Flex, none, 1⟩,
     Op.register "Y" ⟨2, .Label, some "Z", 0⟩]
    (by decide) "A" "Y" ⟨0, .Button, none, 0⟩ ⟨2, .Label, some "Z", 0⟩
    (by decide) (by decide) (by decide) (by decide)⟩
